import Mathlib

/-!
# Verification of the `big_num` numeric engine (crate `bignum-ig`)

Shallow embedding of `src/lib.rs`, `src/comparison.rs`, `src/conversion.rs` and
`src/fmt/simple.rs`.

Modelling conventions:
* `f64` finite values are carried as exact rationals (`ℚ`); floating-point rounding of
  `+ - * / %` and of `10.0f64.powi` is idealized as exact, and `-0.0` is identified
  with `0`. Special values are modelled by the four-state type `F`.
* `i64` values are carried as `ℤ`. The code's *checked* operations
  (`checked_add`/`checked_sub`) are modelled by explicit range tests (`inRange64`);
  the code's *unchecked* `i64`/`i32` arithmetic is modelled with the release-profile
  wrapping semantics (`wrap64`/`wrap32`). In the debug profile those same sites panic
  on overflow instead of wrapping.
* `usize` arithmetic that can panic is modelled with `Option` (`none` = panic).
* Transcendental values (`log10` of a rational, `10^x` for fractional `x`) are
  irrational and outside a shallow embedding; the two stand-ins below
  (`f64log10`, `pow10frac_model`) say so in their doc comments, and no theorem in this
  file depends on their finite-branch values.
-/

set_option maxRecDepth 20000

namespace BigNum

/-! ### 64-bit / 32-bit integer model -/

def I64_MIN : ℤ := -(2 ^ 63)

def I64_MAX : ℤ := 2 ^ 63 - 1

/-- Release-profile wrapping of an `i64` arithmetic result. -/
def wrap64 (z : ℤ) : ℤ := (z + 2 ^ 63) % 2 ^ 64 - 2 ^ 63

/-- Release-profile wrapping of an `as i32` cast. -/
def wrap32 (z : ℤ) : ℤ := (z + 2 ^ 31) % 2 ^ 32 - 2 ^ 31

/-- `i64` range test; models `checked_add`/`checked_sub` succeeding. -/
def inRange64 (z : ℤ) : Bool := decide (I64_MIN ≤ z ∧ z ≤ I64_MAX)

theorem wrap64_eq_of_inRange {z : ℤ} (h : inRange64 z = true) : wrap64 z = z := by
  have h' : I64_MIN ≤ z ∧ z ≤ I64_MAX := by
    simpa [inRange64] using h
  have h0 : (0:ℤ) ≤ z + 2 ^ 63 := by
    have := h'.1; simp only [I64_MIN] at this; linarith
  have h1 : z + 2 ^ 63 < 2 ^ 64 := by
    have := h'.2; simp only [I64_MAX] at this; nlinarith
  simp only [wrap64, Int.emod_eq_of_lt h0 h1]
  ring

/-! ### Exact rational helpers -/

/-- Absolute value, written so that it evaluates structurally (equal to `|q|`). -/
def qabs (q : ℚ) : ℚ := if q < 0 then -q else q

theorem qabs_eq_abs (q : ℚ) : qabs q = |q| := by
  unfold qabs
  rcases lt_or_le q 0 with h | h
  · rw [if_pos h, abs_of_neg h]
  · rw [if_neg (not_lt.mpr h), abs_of_nonneg h]

/-- Truncation toward zero (the semantics of Rust `as i64` on in-range `f64`s). -/
def qtrunc (q : ℚ) : ℤ := if 0 ≤ q then ⌊q⌋ else -⌊-q⌋

/-- Truncated (C-style) remainder: the semantics of `%` on `f64`. -/
def qfmod (a b : ℚ) : ℚ := a - b * (qtrunc (a / b) : ℚ)

/-- Binary exponentiation with structural fuel, so that the kernel can evaluate
large powers without deep recursion. -/
def qpowAux : ℕ → ℚ → ℕ → ℚ
  | 0, _, _ => 1
  | f + 1, b, n =>
    if n = 0 then 1
    else
      let h := qpowAux f (b * b) (n / 2)
      if n % 2 = 1 then b * h else h

def qpowN (b : ℚ) (n : ℕ) : ℚ := qpowAux (n + 1) b n

theorem qpowAux_eq (f : ℕ) : ∀ (b : ℚ) (n : ℕ), n ≤ f → qpowAux (f + 1) b n = b ^ n := by
  induction f with
  | zero =>
    intro b n hn
    interval_cases n
    simp [qpowAux]
  | succ f ih =>
    intro b n hn
    by_cases h0 : n = 0
    · simp [qpowAux, h0]
    · have hhalf : n / 2 ≤ f := by
        have h1 : 1 ≤ n := Nat.one_le_iff_ne_zero.mpr h0
        have := Nat.div_lt_self (Nat.lt_of_lt_of_le Nat.zero_lt_one h1) (by norm_num : 1 < 2)
        omega
      have hrec := ih (b * b) (n / 2) hhalf
      have hbb : (b * b) ^ (n / 2) = b ^ (2 * (n / 2)) := by
        rw [pow_mul]; ring_nf
      have hsplit : n = 2 * (n / 2) + n % 2 := (Nat.div_add_mod n 2).symm ▸ by omega
      by_cases hpar : n % 2 = 1
      · show qpowAux (f + 1 + 1) b n = b ^ n
        rw [show qpowAux (f + 1 + 1) b n =
          (if n = 0 then 1 else
            if n % 2 = 1 then b * qpowAux (f + 1) (b * b) (n / 2)
            else qpowAux (f + 1) (b * b) (n / 2)) from rfl]
        rw [if_neg h0, if_pos hpar, hrec, hbb, ← pow_succ']
        congr 1
        omega
      · show qpowAux (f + 1 + 1) b n = b ^ n
        rw [show qpowAux (f + 1 + 1) b n =
          (if n = 0 then 1 else
            if n % 2 = 1 then b * qpowAux (f + 1) (b * b) (n / 2)
            else qpowAux (f + 1) (b * b) (n / 2)) from rfl]
        rw [if_neg h0, if_neg hpar, hrec, hbb]
        congr 1
        omega

theorem qpowN_eq (b : ℚ) (n : ℕ) : qpowN b n = b ^ n := qpowAux_eq n b n le_rfl

/-- Exact `10^k` over `ℤ` exponents, evaluating by binary exponentiation. -/
def qpow10 (k : ℤ) : ℚ :=
  match k with
  | .ofNat n => qpowN 10 n
  | .negSucc n => (qpowN 10 (n + 1))⁻¹

theorem qpow10_eq (k : ℤ) : qpow10 k = (10 : ℚ) ^ k := by
  cases k with
  | ofNat n => simp [qpow10, qpowN_eq, zpow_natCast]
  | negSucc n => simp [qpow10, qpowN_eq, zpow_negSucc]

/-! ### The f64 model -/

/-- Model of an `f64` value. Finite values carry their exact rational value. -/
inductive F where
  | finite (q : ℚ)
  | nan
  | inf
  | neginf
deriving DecidableEq

/-- `f64::is_normal`: nonzero, not subnormal, not infinite, not NaN. -/
def F.isNormal : F → Bool
  | .finite q => decide (q ≠ 0 ∧ (qpowN 2 1022)⁻¹ ≤ qabs q ∧ qabs q < qpowN 2 1024)
  | _ => false

/-- `f64` multiplication on the model (used for `log10(x) * power` in `powf`).
Finite × finite is exact, with overflow collapsing to the signed infinity. -/
def F.mul : F → F → F
  | .nan, _ => .nan
  | _, .nan => .nan
  | .inf, .inf => .inf
  | .inf, .neginf => .neginf
  | .neginf, .inf => .neginf
  | .neginf, .neginf => .inf
  | .inf, .finite q => if q = 0 then .nan else if 0 < q then .inf else .neginf
  | .finite q, .inf => if q = 0 then .nan else if 0 < q then .inf else .neginf
  | .neginf, .finite q => if q = 0 then .nan else if 0 < q then .neginf else .inf
  | .finite q, .neginf => if q = 0 then .nan else if 0 < q then .neginf else .inf
  | .finite a, .finite b =>
    if qpowN 2 1024 ≤ qabs (a * b) then (if a * b < 0 then .neginf else .inf)
    else .finite (a * b)

/-! ### The value type `Big` (src/lib.rs) -/

inductive InfinityKind where
  | Positive
  | Negative
deriving DecidableEq

inductive Big where
  | Number (m : ℚ) (e : ℤ)
  | NaN
  | Infinity (kind : InfinityKind)
  | Zero
deriving DecidableEq

def POS_INFINITY : Big := .Infinity .Positive

def NEG_INFINITY : Big := .Infinity .Negative

def SIG_DIGITS : ℤ := 15

/-- `m.abs().log10() as i64`: `f64::log10` followed by an `as`-cast truncating toward
zero. On exact rationals this is the floor of `log10` for `q ≥ 1` and its ceiling for
`q < 1`. -/
def truncLog10 (q : ℚ) : ℤ := if 1 ≤ q then Int.log 10 q else Int.clog 10 q

/-- `Big::normalize` (src/lib.rs lines 102-160). The mantissa-is-NaN / mantissa-is-±∞
branches of the source cannot arise inside the `ℚ` model and are handled at the `F`
boundary by `Big.newF`. `*e += log` is the source's unchecked `i64` addition, hence
`wrap64`; the two `checked_sub`/`checked_add` guards are the `inRange64` tests. -/
def Big.normalize : Big → Big
  | .Number m e =>
    if m = 0 then .Zero
    else if 1 ≤ m ∧ m < 10 then .Number m e
    else
      let logt := truncLog10 (qabs m)
      if logt ≤ 0 then
        if inRange64 (e + logt) then
          let logf := Int.log 10 (qabs m)
          .Number (m / 10 ^ logf) (wrap64 (e + logf))
        else .Zero
      else
        if inRange64 (e + logt) then
          let logf := Int.log 10 (qabs m)
          .Number (m / 10 ^ logf) (wrap64 (e + logf))
        else if 0 < m then POS_INFINITY else NEG_INFINITY
  | b => b

/-- `Big::new`. -/
def Big.new (mantissa : ℚ) (exponent : ℤ) : Big :=
  (Big.Number mantissa exponent).normalize

/-- `Big::new_unnormalized`. -/
def Big.new_unnormalized (mantissa : ℚ) (exponent : ℤ) : Big :=
  .Number mantissa exponent

/-- `Big::neg_mut`. -/
def Big.neg_mut : Big → Big
  | .Infinity .Positive => NEG_INFINITY
  | .Infinity .Negative => POS_INFINITY
  | .Number m e => .Number (-m) e
  | b => b

/-! ### Binary operators (src/lib.rs)

Each `*_mut_unnormalized` method is a `match` block followed by an
`if let (Number, Number)` numeric block. Match arms that end in `return` skip the
numeric block; arms that merely assign `*self` fall through to it. Each `*Arms`
function returns the updated `self` together with that early-return flag, in the
source's arm order. -/

def addArms (a rhs : Big) : Big × Bool :=
  match a, rhs with
  | .NaN, _ => (.NaN, false)
  | _, .NaN => (.NaN, false)
  | .Infinity k, .Infinity k2 => if k ≠ k2 then (.NaN, false) else (.Infinity k, true)
  | .Infinity k, .Number _ _ => (.Infinity k, true)
  | .Infinity k, .Zero => (.Infinity k, true)
  | .Number _ _, .Infinity k => (.Infinity k, false)
  | .Zero, .Infinity k => (.Infinity k, false)
  | .Zero, other => (other, false)
  | .Number m e, .Zero => (.Number m e, true)
  | .Number m e, .Number _ _ => (.Number m e, false)

/-- `Big::add_mut_unnormalized` (src/lib.rs lines 190-245). The `delta` subtraction
`other_e - *e` is unchecked `i64` arithmetic (`wrap64`); when `|delta| < 15` the
`try_into::<i32>` with its `expect` always succeeds. -/
def Big.add_mut_unnormalized (a rhs : Big) : Big :=
  let s := addArms a rhs
  if s.2 then s.1 else
  match s.1, rhs with
  | .Number m e, .Number om oe =>
    let delta := wrap64 (oe - e)
    if delta ≤ -SIG_DIGITS then .Number m e
    else if SIG_DIGITS ≤ delta then .Number om oe
    else .Number (m + om * 10 ^ delta) e
  | s1, _ => s1

def subArms (a rhs : Big) : Big × Bool :=
  match a, rhs with
  | .NaN, _ => (.NaN, false)
  | _, .NaN => (.NaN, false)
  | .Infinity _, .Infinity _ => (.NaN, false)
  | .Infinity k, .Number _ _ => (.Infinity k, true)
  | .Infinity k, .Zero => (.Infinity k, true)
  | .Number _ _, .Infinity .Positive => (NEG_INFINITY, false)
  | .Zero, .Infinity .Positive => (NEG_INFINITY, false)
  | .Number _ _, .Infinity .Negative => (POS_INFINITY, false)
  | .Zero, .Infinity .Negative => (POS_INFINITY, false)
  | .Zero, other => (other.neg_mut, false)
  | .Number m e, .Zero => (.Number m e, true)
  | .Number m e, .Number _ _ => (.Number m e, false)

/-- `Big::sub_mut_unnormalized` (src/lib.rs lines 253-311). Note that the
`delta >= 15` arm copies the right operand without negating it, exactly as in the
source. -/
def Big.sub_mut_unnormalized (a rhs : Big) : Big :=
  let s := subArms a rhs
  if s.2 then s.1 else
  match s.1, rhs with
  | .Number m e, .Number om oe =>
    let delta := wrap64 (oe - e)
    if delta ≤ -SIG_DIGITS then .Number m e
    else if SIG_DIGITS ≤ delta then .Number om oe
    else .Number (m - om * 10 ^ delta) e
  | s1, _ => s1

def mulArms (a rhs : Big) : Big × Bool :=
  match a, rhs with
  | .NaN, _ => (.NaN, false)
  | _, .NaN => (.NaN, false)
  | .Infinity k, .Infinity .Positive => (.Infinity k, true)
  | _, .Infinity .Negative => (NEG_INFINITY, false)
  | .Zero, .Infinity _ => (.NaN, false)
  | .Infinity _, .Zero => (.NaN, false)
  | .Number _ _, .Infinity k => (.Infinity k, false)
  | .Infinity k, .Number _ _ => (.Infinity k, true)
  | .Zero, _ => (.Zero, true)
  | .Number _ _, .Zero => (.Zero, false)
  | .Number m e, .Number _ _ => (.Number m e, false)

/-- `Big::mul_mut_unnormalized` (src/lib.rs lines 319-351). `*e += other_e` is
unchecked `i64` addition. -/
def Big.mul_mut_unnormalized (a rhs : Big) : Big :=
  let s := mulArms a rhs
  if s.2 then s.1 else
  match s.1, rhs with
  | .Number m e, .Number om oe => .Number (m * om) (wrap64 (e + oe))
  | s1, _ => s1

def divArms (a rhs : Big) : Big × Bool :=
  match a, rhs with
  | .NaN, _ => (.NaN, false)
  | _, .NaN => (.NaN, false)
  | .Infinity _, .Infinity _ => (.NaN, false)
  | .Number _ _, .Infinity _ => (.Zero, false)
  | .Zero, .Infinity _ => (.Zero, false)
  | .Infinity k, .Number _ _ => (.Infinity k, true)
  | .Zero, _ => (.Zero, true)
  | _, .Zero => (.NaN, false)
  | .Number m e, .Number _ _ => (.Number m e, false)

/-- `Big::div_mut_unnormalized` (src/lib.rs lines 359-389). `*e -= other_e` is
unchecked `i64` subtraction. -/
def Big.div_mut_unnormalized (a rhs : Big) : Big :=
  let s := divArms a rhs
  if s.2 then s.1 else
  match s.1, rhs with
  | .Number m e, .Number om oe => .Number (m / om) (wrap64 (e - oe))
  | s1, _ => s1

def remArms (a rhs : Big) : Big × Bool :=
  match a, rhs with
  | .NaN, _ => (.NaN, true)
  | _, .NaN => (a, true)
  | _, .Zero => (.NaN, false)
  | .Infinity _, .Infinity _ => (.NaN, false)
  | .Zero, _ => (.Zero, true)
  | .Number m e, .Infinity _ => (.Number m e, true)
  | .Infinity _, .Number _ _ => (.NaN, false)
  | .Number m e, .Number _ _ => (.Number m e, false)

/-- `10.0_f64.powi(k)` with `f64` range behavior: overflow to `+inf` for `k ≥ 309`,
underflow to `0` for `k ≤ -324`, exact otherwise (subnormal rounding idealized). -/
def f64pow10 (k : ℤ) : F :=
  if 309 ≤ k then .inf
  else if k ≤ -324 then .finite 0
  else .finite (10 ^ k)

/-- `Big::remainder_mut_unnormalized` (src/lib.rs lines 585-612). The exponent delta
is computed with unchecked `i64` subtraction and then an `as i32` cast (both wrap in
release). A NaN mantissa (from `0.0 * inf` or `m % NaN`) is not representable in the
`ℚ` model and is collapsed to the `NaN` state directly, which is what `normalize`
would do with it. -/
def Big.remainder_mut_unnormalized (a rhs : Big) : Big :=
  let s := remArms a rhs
  if s.2 then s.1 else
  match s.1, rhs with
  | .Number m e, .Number om oe =>
    let k := wrap32 (wrap64 (oe - e))
    match F.mul (.finite om) (f64pow10 k) with
    | .inf => .Number m e
    | .neginf => .Number m e
    | .nan => .NaN
    | .finite v => if v = 0 then .Number 0 e else .Number (qfmod m v) e
  | s1, _ => s1

/-- The public operators (`+=`, `+`, ... in src/lib.rs lines 615-698):
raw combination followed by `normalize`. -/
def Big.add (a b : Big) : Big := (a.add_mut_unnormalized b).normalize

def Big.sub (a b : Big) : Big := (a.sub_mut_unnormalized b).normalize

def Big.mul (a b : Big) : Big := (a.mul_mut_unnormalized b).normalize

def Big.div (a b : Big) : Big := (a.div_mut_unnormalized b).normalize

def Big.rem (a b : Big) : Big := (a.remainder_mut_unnormalized b).normalize

/-- `PartialEq for Big` (src/comparison.rs lines 69-83). -/
def Big.beq : Big → Big → Bool
  | .Number m e, .Number om oe => decide (m = om ∧ e = oe)
  | .Zero, .Zero => true
  | _, _ => false

/-- `Big::abs_mut` (src/lib.rs lines 401-405). -/
def Big.abs_mut : Big → Big
  | .Number m e => .Number (qabs m) e
  | b => b

/-- `Big::abs` (src/lib.rs lines 416-420): clone then `abs_mut`. -/
def Big.abs (b : Big) : Big := b.abs_mut

/-! ### Power and logarithm (src/lib.rs lines 474-577) -/

/-- Modelled from the spec: `f64::log10` on a positive rational is irrational and not
representable in the shallow embedding; the model returns its integer part. The
negative/zero branches are exact f64 semantics (`log10(neg) = NaN`,
`log10(0) = -inf`). No theorem below depends on the positive branch's value. -/
def f64log10 (q : ℚ) : F :=
  if q < 0 then .nan
  else if q = 0 then .neginf
  else .finite (Int.log 10 q)

/-- `Big::log10`: `m.log10() + e as f64` for Numbers (`-inf + e = -inf`). -/
def Big.log10 : Big → F
  | .Number m e =>
    match f64log10 m with
    | .finite l => .finite (l + e)
    | other => other
  | .Infinity .Negative => .nan
  | .Infinity .Positive => .inf
  | .Zero => .nan
  | .NaN => .nan

/-- Modelled from the spec: `10^x` for fractional `x` is irrational; stand-in value.
No theorem below depends on it. -/
def pow10frac_model (x : ℚ) : ℚ := if x = 0 then 1 else 1

/-- `log as i64`: saturating truncation of an `f64` to `i64` (reached only after the
range guards in `powf_mut`). -/
def f64toI64 (q : ℚ) : ℤ :=
  if qtrunc q < I64_MIN then I64_MIN
  else if I64_MAX < qtrunc q then I64_MAX
  else qtrunc q

/-- `Big::powf_mut` (src/lib.rs lines 535-563). `i64::MIN as f64 = -2^63` exactly and
`i64::MAX as f64 = 2^63` (rounded up), hence the guard constants. -/
def Big.powf_mut (b : Big) (power : F) : Big :=
  if b = .Zero ∧ power.isNormal = true then b
  else
    match F.mul (b.abs.log10) power with
    | .neginf => .NaN
    | .inf => POS_INFINITY
    | .nan => .NaN
    | .finite log =>
      if log < -((2:ℚ) ^ (63:ℕ)) then .Zero
      else if ((2:ℚ) ^ (63:ℕ)) < log then POS_INFINITY
      else
        match b with
        | .Number _ _ =>
          let m0 := pow10frac_model (log - (qtrunc log : ℚ))
          let m1 := if qfmod log 2 = 0 then qabs m0 else m0
          .Number m1 (f64toI64 log)
        | other => other

/-- `Big::powf`: clone then `powf_mut`. -/
def Big.powf (b : Big) (power : F) : Big := b.powf_mut power

/-! ### Codec: formatting (src/fmt/simple.rs) -/

def zeroes (n : ℕ) : String := String.mk (List.replicate n '0')

/-- `m.to_string().replace(".", "")` applied to an already-rendered decimal string. -/
def stripDots (s : String) : String := String.mk (s.data.filter (fun c => c ≠ '.'))

/-- The zero-padding length computation in `to_fixed`'s large-exponent branch
(src/fmt/simple.rs lines 19-26): with `result = m.to_string().replace(".", "")` the
code computes `(*e as usize) - result.len() + 1` in `usize` arithmetic. `none` models
the panic/abort when `result.len() > e` (debug profile: subtraction-overflow panic;
release profile: wraparound followed by a capacity-overflow abort inside
`"0".repeat`). The surrounding branch is only taken for `e ≥ 15`, so `e : ℕ`. -/
def to_fixed_pad (result : String) (e : ℕ) : Option ℕ :=
  if result.length ≤ e then some (e - result.length + 1) else none

/-- `{m:.places$}` fixed-point rendering of a nonnegative exact rational. Rust rounds
to nearest (ties to even); ties cannot occur at the call sites proved below, so the
model rounds half up. -/
def fmtFixedPos (q : ℚ) (places : ℕ) : String :=
  let n : ℕ := (⌊q * (10:ℚ) ^ places + 1/2⌋).toNat
  let ip := n / 10 ^ places
  let fp := n % 10 ^ places
  if places = 0 then toString ip
  else toString ip ++ "." ++ zeroes (places - (toString fp).length) ++ toString fp

def fmtFixed (q : ℚ) (places : ℕ) : String :=
  if q < 0 then "-" ++ fmtFixedPos (-q) places else fmtFixedPos q places

/-- `Big::to_exponential` (src/fmt/simple.rs lines 44-52). The `slf => slf.to_string()`
arm can only see `NaN` and `Infinity`, whose `Display` forms are inlined. -/
def Big.to_exponential (b : Big) (places : ℕ) : String :=
  match b with
  | .Zero => "0." ++ zeroes places
  | .Number m e => fmtFixed m places ++ "e" ++ toString e
  | .NaN => "NaN"
  | .Infinity .Positive => "+inf"
  | .Infinity .Negative => "-inf"

/-! ### Codec: parsing (src/conversion.rs) -/

/-- ASCII lowercasing of one char (models `str::to_lowercase` on the inputs used). -/
def charLower (c : Char) : Char :=
  if 'A' ≤ c ∧ c ≤ 'Z' then Char.ofNat (c.toNat + 32) else c

def toLowerStr (s : String) : String := String.mk (s.data.map charLower)

/-- `str::split` on a one-char separator, over char lists. -/
def splitOnChar (sep : Char) : List Char → List (List Char)
  | [] => [[]]
  | c :: cs =>
    let rest := splitOnChar sep cs
    if c = sep then [] :: rest
    else
      match rest with
      | [] => [[c]]
      | r :: rs => (c :: r) :: rs

def splitE (s : String) : List String := (splitOnChar 'e' s.data).map String.mk

/-- Digit-string value; `none` if empty or containing a non-digit. -/
def digitsVal (cs : List Char) : Option ℕ :=
  if cs.isEmpty then none
  else
    cs.foldl
      (fun acc c =>
        match acc with
        | none => none
        | some v => if c.isDigit then some (v * 10 + (c.toNat - 48)) else none)
      (some 0)

/-- Modelled from std: `str::parse::<i64>` — optional sign, decimal digits, error on
overflow. -/
def rust_parse_i64 (s : String) : Option ℤ :=
  let p : ℤ × List Char :=
    match s.data with
    | '+' :: cs => (1, cs)
    | '-' :: cs => (-1, cs)
    | cs => (1, cs)
  match digitsVal p.2 with
  | none => none
  | some v =>
    let z := p.1 * v
    if inRange64 z then some z else none

/-- Rounding of an exact decimal value to the `f64` model: underflow below half the
minimum subnormal collapses to `0`, overflow at `2^1024` collapses to the signed
infinity, and in-range values are kept exact (idealized). -/
def f64clamp (v : ℚ) : F :=
  if v = 0 then .finite 0
  else if qabs v < (qpowN 2 1075)⁻¹ then .finite 0
  else if qpowN 2 1024 ≤ qabs v then (if v < 0 then .neginf else .inf)
  else .finite v

/-- Decimal-mantissa part of an `f64` literal: `Digits '.'? | Digits '.' Digits |
'.' Digits`, scaled by `10^ex`. -/
def parseDec (neg : Bool) (mant : List Char) (ex : ℤ) : Option F :=
  let mk : ℕ → ℕ → ℕ → F := fun ipv fpv flen =>
    let mag : ℚ := (ipv : ℚ) + (fpv : ℚ) / qpowN 10 flen
    f64clamp ((if neg then -mag else mag) * qpow10 ex)
  match splitOnChar '.' mant with
  | [ip] =>
    match digitsVal ip with
    | some v => some (mk v 0 0)
    | none => none
  | [ip, fp] =>
    if ip.isEmpty ∧ fp.isEmpty then none
    else if ip.isEmpty then (digitsVal fp).map (fun fv => mk 0 fv fp.length)
    else if fp.isEmpty then (digitsVal ip).map (fun iv => mk iv 0 0)
    else
      match digitsVal ip, digitsVal fp with
      | some iv, some fv => some (mk iv fv fp.length)
      | _, _ => none
  | _ => none

/-- Modelled from std: `str::parse::<f64>` (`FromStr for f64`), per the std grammar:
optional sign, then `inf`/`infinity`/`nan` (case-insensitive) or a decimal number
with optional `e`/`E` exponent. Out-of-range decimal values round to `0` / `±inf`
per IEEE 754 (see `f64clamp`). -/
def rust_parse_f64 (s : String) : Option F :=
  let cs := s.data.map charLower
  let p : Bool × List Char :=
    match cs with
    | '+' :: t => (false, t)
    | '-' :: t => (true, t)
    | t => (false, t)
  if p.2 = "inf".data ∨ p.2 = "infinity".data then
    some (if p.1 then .neginf else .inf)
  else if p.2 = "nan".data then some .nan
  else
    match splitOnChar 'e' p.2 with
    | [mant] => parseDec p.1 mant 0
    | [mant, ex] =>
      let pe : ℤ × List Char :=
        match ex with
        | '+' :: t => (1, t)
        | '-' :: t => (-1, t)
        | t => (1, t)
      match digitsVal pe.2 with
      | none => none
      | some ev => parseDec p.1 mant (pe.1 * ev)
    | _ => none

/-- `Big::new` called with an `f64` that may be NaN/±inf: `normalize` maps a NaN
mantissa to `NaN` and a `±inf` mantissa to the matching infinity (src/lib.rs lines
110-121), which the model applies at the `F` boundary. -/
def Big.newF (f : F) (e : ℤ) : Big :=
  match f with
  | .finite q => (Big.Number q e).normalize
  | .nan => .NaN
  | .inf => POS_INFINITY
  | .neginf => NEG_INFINITY

/-- `From<f64> for Big`: `Big::new(value, 0)`. -/
def Big.fromF64 (f : F) : Big := Big.newF f 0

inductive ParseError where
  | Parts
  | Mantissa (s : String)
  | Exponent (s : String)
deriving DecidableEq

/-- `FromStr for Big` (src/conversion.rs lines 48-74). -/
def from_str (s : String) : Except ParseError Big :=
  let low := toLowerStr s
  if low = "0" then .ok .Zero
  else if low = "nan" then .ok .NaN
  else
    match rust_parse_f64 s with
    | some number => .ok (Big.fromF64 number)
    | none =>
      match splitE s with
      | [ms, es] =>
        match rust_parse_f64 ms, rust_parse_i64 es with
        | some m, some e2 => .ok (Big.newF m e2)
        | none, some _ => .error (.Mantissa ms)
        | some _, none => .error (.Exponent es)
        | none, none => .error .Parts
      | _ => .error .Parts

/-! ### Canonical values and commutativity side conditions -/

/-- A canonical public value: canonical mantissa (|m| in [1,10)) and an exponent in the
`i64` range; the special states are canonical as they stand. -/
def canonical : Big → Bool
  | .Number m e => decide (1 ≤ qabs m ∧ qabs m < 10) && inRange64 e
  | _ => true

/-- Operand pairs on which the two evaluation orders of the addition algorithm perform
the *identical* f64 computation, so that order-independence does not rest on the
exact-rational idealization of rounding: two Numbers with equal exponents (`delta = 0`:
`powi(0)` is exactly `1.0` and f64 addition of the same two mantissas is commutative),
or two Numbers in the cutoff regime `|delta| ≥ 15` (pure copies, no arithmetic), with
the exponent difference fitting `i64` in both directions; or two Zeros. In the
rescaling regime `0 < |delta| < 15` the two orders round `powi`, `*` and `+`
differently and commutativity genuinely fails on the code (e.g. `1e0 + (1+2^-52)e1`
and its swap differ in the last mantissa ulp). -/
def addCommOK (a b : Big) : Bool :=
  match a, b with
  | .Number _ e1, .Number _ e2 =>
    inRange64 (e2 - e1) && inRange64 (e1 - e2) &&
      (decide (e1 = e2) || decide (SIG_DIGITS ≤ e2 - e1) ||
        decide (e2 - e1 ≤ -SIG_DIGITS))
  | .Zero, .Zero => true
  | _, _ => false

/-- Operand pairs on which multiplication is order-independent: any two finite values.
Both orders perform the one shared mantissa multiply (f64 multiplication is
commutative) and the same wrapped exponent addition, then normalize the identical
pair, so this does not rest on the exactness idealization either. -/
def mulCommOK (a b : Big) : Bool :=
  match a, b with
  | .Number _ _, .Number _ _ => true
  | .Number _ _, .Zero => true
  | .Zero, .Number _ _ => true
  | .Zero, .Zero => true
  | _, _ => false

/-! ### Logarithm facts used by the normalize proofs -/

theorem cast_ten : ((10 : ℕ) : ℚ) = 10 := by norm_num

theorem log10_unique {q : ℚ} (hq : 0 < q) {n : ℤ}
    (h1 : (10 : ℚ) ^ n ≤ q) (h2 : q < (10 : ℚ) ^ (n + 1)) : Int.log 10 q = n := by
  have hb : 1 < (10 : ℕ) := by norm_num
  refine le_antisymm ?_ ?_
  · have := (Int.lt_zpow_iff_log_lt hb hq).mp (by rw [cast_ten]; exact h2)
    omega
  · exact (Int.zpow_le_iff_le_log hb hq).mp (by rw [cast_ten]; exact h1)

theorem clog10_unique {q : ℚ} (hq : 0 < q) {n : ℤ}
    (h1 : (10 : ℚ) ^ (n - 1) < q) (h2 : q ≤ (10 : ℚ) ^ n) : Int.clog 10 q = n := by
  have hb : 1 < (10 : ℕ) := by norm_num
  refine le_antisymm ?_ ?_
  · exact (Int.le_zpow_iff_clog_le hb hq).mp (by rw [cast_ten]; exact h2)
  · have := (Int.zpow_lt_iff_lt_clog hb hq).mp (by rw [cast_ten]; exact h1)
    omega

theorem log10_le_self {q : ℚ} (hq : 0 < q) : (10 : ℚ) ^ Int.log 10 q ≤ q := by
  have := Int.zpow_log_le_self (b := 10) (by norm_num) hq
  rwa [cast_ten] at this

theorem lt_log10_succ {q : ℚ} : q < (10 : ℚ) ^ (Int.log 10 q + 1) := by
  have := Int.lt_zpow_succ_log_self (b := 10) (by norm_num) q
  rwa [cast_ten] at this

theorem self_le_clog10 {q : ℚ} : q ≤ (10 : ℚ) ^ Int.clog 10 q := by
  have := Int.self_le_zpow_clog (b := 10) (by norm_num) q
  rwa [cast_ten] at this

theorem log10_shift {q : ℚ} (hq : 0 < q) (k : ℤ) :
    Int.log 10 (q * 10 ^ k) = Int.log 10 q + k := by
  have h10 : (0 : ℚ) < 10 ^ k := by positivity
  apply log10_unique (by positivity)
  · rw [zpow_add₀ (by norm_num : (10:ℚ) ≠ 0)]
    exact mul_le_mul_of_nonneg_right (log10_le_self hq) (le_of_lt h10)
  · rw [show Int.log 10 q + k + 1 = (Int.log 10 q + 1) + k by ring,
      zpow_add₀ (by norm_num : (10:ℚ) ≠ 0)]
    exact mul_lt_mul_of_pos_right lt_log10_succ h10

theorem clog10_shift {q : ℚ} (hq : 0 < q) (k : ℤ) :
    Int.clog 10 (q * 10 ^ k) = Int.clog 10 q + k := by
  have h10 : (0 : ℚ) < 10 ^ k := by positivity
  apply clog10_unique (by positivity)
  · rw [show Int.clog 10 q + k - 1 = (Int.clog 10 q - 1) + k by ring,
      zpow_add₀ (by norm_num : (10:ℚ) ≠ 0)]
    have := Int.zpow_pred_clog_lt_self (b := 10) (r := q) (by norm_num) hq
    rw [cast_ten] at this
    exact mul_lt_mul_of_pos_right this h10
  · rw [zpow_add₀ (by norm_num : (10:ℚ) ≠ 0)]
    exact mul_le_mul_of_nonneg_right self_le_clog10 (le_of_lt h10)

theorem log10_eq_zero {q : ℚ} (h1 : 1 ≤ q) (h2 : q < 10) : Int.log 10 q = 0 := by
  apply log10_unique (lt_of_lt_of_le one_pos h1) <;> simpa

theorem log10_nonpos {q : ℚ} (hq : 0 < q) (h : q < 10) : Int.log 10 q ≤ 0 := by
  have := (Int.lt_zpow_iff_log_lt (b := 10) (x := 1) (by norm_num) hq).mp
    (by rw [cast_ten]; simpa using h)
  omega

theorem log10_pos_of_ten_le {q : ℚ} (h : (10:ℚ) ≤ q) : 1 ≤ Int.log 10 q := by
  have hq : (0:ℚ) < q := lt_of_lt_of_le (by norm_num) h
  exact (Int.zpow_le_iff_le_log (b := 10) (by norm_num) hq).mp (by rw [cast_ten]; simpa)

theorem log10_neg_of_lt_one {q : ℚ} (hq : 0 < q) (h : q < 1) : Int.log 10 q ≤ -1 := by
  have := (Int.lt_zpow_iff_log_lt (b := 10) (x := 0) (by norm_num) hq).mp
    (by rw [cast_ten]; simpa using h)
  omega

theorem log10_le_clog10 {q : ℚ} (hq : 0 < q) : Int.log 10 q ≤ Int.clog 10 q := by
  have h1 : (10:ℚ) ^ Int.log 10 q ≤ (10:ℚ) ^ Int.clog 10 q :=
    le_trans (log10_le_self hq) self_le_clog10
  exact (zpow_le_zpow_iff_right₀ (by norm_num : (1:ℚ) < 10)).mp h1

theorem clog10_le_log10_succ {q : ℚ} (hq : 0 < q) :
    Int.clog 10 q ≤ Int.log 10 q + 1 := by
  exact (Int.le_zpow_iff_clog_le (b := 10) (by norm_num) hq).mp
    (by rw [cast_ten]; exact le_of_lt lt_log10_succ)

theorem clog10_nonpos {q : ℚ} (hq : 0 < q) (h : q ≤ 1) : Int.clog 10 q ≤ 0 := by
  exact (Int.le_zpow_iff_clog_le (b := 10) (by norm_num) hq).mp
    (by rw [cast_ten]; simpa using h)

theorem log10_nonneg {q : ℚ} (h : 1 ≤ q) : 0 ≤ Int.log 10 q := by
  have hq : (0:ℚ) < q := lt_of_lt_of_le one_pos h
  exact (Int.zpow_le_iff_le_log (b := 10) (x := 0) (by norm_num) hq).mp
    (by rw [cast_ten]; simpa using h)

theorem clog10_nonneg {q : ℚ} (h : 1 ≤ q) : 0 ≤ Int.clog 10 q :=
  le_trans (log10_nonneg h) (log10_le_clog10 (lt_of_lt_of_le one_pos h))

/-! ### qabs and range helpers -/

theorem qabs_nonneg (q : ℚ) : 0 ≤ qabs q := by
  unfold qabs; split <;> linarith

theorem qabs_pos {q : ℚ} (h : q ≠ 0) : 0 < qabs q := by
  unfold qabs; split
  · linarith
  · cases lt_or_eq_of_le (le_of_not_lt (by assumption)) with
    | inl h1 => linarith
    | inr h1 => exact absurd h1.symm h

theorem qabs_of_nonneg {q : ℚ} (h : 0 ≤ q) : qabs q = q := by
  unfold qabs; rw [if_neg (not_lt.mpr h)]

theorem inRange64_iff {z : ℤ} : inRange64 z = true ↔ I64_MIN ≤ z ∧ z ≤ I64_MAX := by
  simp [inRange64]

/-! ### A mathematical characterization of `normalize` on Numbers -/

/-- What `normalize` computes on `Number m e` for `m ≠ 0` and an in-range `e`
(`normalize_eq_normResult`): collapse to `Zero` when the canonical exponent (tested
through the truncated log, here `Int.clog`) underflows, to the signed infinity when it
overflows, and otherwise rescale by the floor log. -/
def normResult (m : ℚ) (e : ℤ) : Big :=
  let q := qabs m
  let logf := Int.log 10 q
  if q < 1 then
    (if e + Int.clog 10 q < I64_MIN then Big.Zero
     else .Number (m / 10 ^ logf) (wrap64 (e + logf)))
  else if q < 10 then .Number (m / 10 ^ logf) (wrap64 (e + logf))
  else
    (if I64_MAX < e + logf then (if 0 < m then POS_INFINITY else NEG_INFINITY)
     else .Number (m / 10 ^ logf) (wrap64 (e + logf)))

theorem normalize_eq_normResult (m : ℚ) (e : ℤ) (hm : m ≠ 0) (he : inRange64 e = true) :
    Big.normalize (.Number m e) = normResult m e := by
  have hq : 0 < qabs m := qabs_pos hm
  have heR := inRange64_iff.mp he
  simp only [Big.normalize, normResult]
  rw [if_neg hm]
  by_cases hfast : 1 ≤ m ∧ m < 10
  · -- fast path: m itself is in [1,10), hence qabs m = m and log = 0
    have habs : qabs m = m := qabs_of_nonneg (le_trans zero_le_one hfast.1)
    have hlog : Int.log 10 (qabs m) = 0 := by
      rw [habs]; exact log10_eq_zero hfast.1 hfast.2
    rw [if_pos hfast, if_neg (by rw [habs]; exact not_lt.mpr hfast.1),
      if_pos (by rw [habs]; exact hfast.2), hlog]
    rw [zpow_zero, div_one, add_zero, wrap64_eq_of_inRange he]
  · rw [if_neg hfast]
    rcases lt_or_le (qabs m) 1 with hq1 | hq1
    · -- q < 1 : truncated log is the (nonpositive) ceiling log
      have htr : truncLog10 (qabs m) = Int.clog 10 (qabs m) := by
        unfold truncLog10; rw [if_neg (not_le.mpr hq1)]
      have hcl : Int.clog 10 (qabs m) ≤ 0 := clog10_nonpos hq (le_of_lt hq1)
      rw [htr, if_pos hcl, if_pos hq1]
      by_cases hz : e + Int.clog 10 (qabs m) < I64_MIN
      · rw [if_neg (by rw [inRange64_iff]; push_neg; intro h; omega), if_pos hz]
      · rw [if_pos (by rw [inRange64_iff]; constructor <;> omega), if_neg hz]
    · rcases lt_or_le (qabs m) 10 with hq10 | hq10
      · -- 1 ≤ q < 10 : truncated log is 0, no collapse possible
        have htr : truncLog10 (qabs m) = 0 := by
          unfold truncLog10; rw [if_pos hq1]; exact log10_eq_zero hq1 hq10
        rw [htr, if_pos le_rfl, if_pos (by rw [add_zero]; exact he),
          if_neg (not_lt.mpr hq1), if_pos hq10]
      · -- q ≥ 10 : truncated log is the (positive) floor log
        have htr : truncLog10 (qabs m) = Int.log 10 (qabs m) := by
          unfold truncLog10; rw [if_pos hq1]
        have hlg : 1 ≤ Int.log 10 (qabs m) := log10_pos_of_ten_le hq10
        rw [htr, if_neg (by omega), if_neg (not_lt.mpr hq1), if_neg (not_lt.mpr hq10)]
        by_cases hi : I64_MAX < e + Int.log 10 (qabs m)
        · rw [if_neg (by rw [inRange64_iff]; push_neg; intro h; omega), if_pos hi]
        · rw [if_pos (by rw [inRange64_iff]; constructor <;> omega), if_neg hi]

/-! ### Bridge lemmas: the operators on two Numbers / on Zeros -/

theorem add_number_number (m1 m2 : ℚ) (e1 e2 : ℤ) :
    Big.add (.Number m1 e1) (.Number m2 e2) =
      Big.normalize
        (if wrap64 (e2 - e1) ≤ -SIG_DIGITS then Big.Number m1 e1
         else if SIG_DIGITS ≤ wrap64 (e2 - e1) then Big.Number m2 e2
         else Big.Number (m1 + m2 * 10 ^ wrap64 (e2 - e1)) e1) := rfl

theorem mul_number_number (m1 m2 : ℚ) (e1 e2 : ℤ) :
    Big.mul (.Number m1 e1) (.Number m2 e2) =
      Big.normalize (.Number (m1 * m2) (wrap64 (e1 + e2))) := rfl

theorem normalize_mantissa_zero (e : ℤ) : Big.normalize (.Number 0 e) = .Zero := by
  simp [Big.normalize]

theorem F_mul_nan_left (p : F) : F.mul .nan p = .nan := by
  cases p <;> rfl

deriving instance DecidableEq for Except

/-! ### Claim theorems -/

/-- C1: the claim "no public operation panics" fails on the code. Evaluating the
`to_fixed` padding computation at the canonical value `Number { m: 1.0000000000000002,
e: 15 }` (Rust renders that mantissa as the 17-significant-digit string
"1.0000000000000002"): the `usize` subtraction `(*e as usize) - result.len()`
computes `15 - 17` and panics (debug) / wraps and aborts on `"0".repeat` (release),
modelled by `none`. -/
theorem C1_to_fixed_pad_aborts :
    (stripDots "1.0000000000000002").length = 17 ∧
    to_fixed_pad (stripDots "1.0000000000000002") 15 = none := by
  with_unfolding_all decide

/-- C2: the claim "x % NaN is NaN for every x" fails on the code. The first arm of
`remainder_mut_unnormalized` handles `(_, NaN)` with a bare `return`, leaving the left
operand unchanged: `Big::from(5) % Big::NaN` evaluates to `5`, not `NaN`. -/
theorem C2_rem_nan_rhs_not_absorbed :
    Big.rem (.Number 5 0) .NaN = .Number 5 0 ∧
    Big.rem (.Number 5 0) .NaN ≠ .NaN := by
  with_unfolding_all decide

/-- C3 counterexample: multiplying two Infinities of equal sign does NOT give NaN
(it gives that same infinity), and `Zero * Infinity(Negative)` does NOT give NaN
(the wildcard arm `(_, Infinity(Negative))` fires first and gives
`Infinity(Negative)`). -/
theorem C3_counterexample :
    Big.mul POS_INFINITY POS_INFINITY = POS_INFINITY ∧
    Big.mul NEG_INFINITY NEG_INFINITY = NEG_INFINITY ∧
    Big.mul .Zero NEG_INFINITY = NEG_INFINITY ∧
    POS_INFINITY ≠ Big.NaN ∧ NEG_INFINITY ≠ Big.NaN := by
  with_unfolding_all decide

/-- C3 amended: the special-state multiplication table the code actually implements.
Equal-sign infinity products return that infinity; opposite signs give
`Infinity(Negative)`; `Zero × Infinity(Positive)` and `Infinity × Zero` give NaN but
`Zero × Infinity(Negative)` gives `Infinity(Negative)`. -/
theorem C3_mul_special_table :
    Big.mul POS_INFINITY POS_INFINITY = POS_INFINITY ∧
    Big.mul NEG_INFINITY NEG_INFINITY = NEG_INFINITY ∧
    Big.mul POS_INFINITY NEG_INFINITY = NEG_INFINITY ∧
    Big.mul NEG_INFINITY POS_INFINITY = NEG_INFINITY ∧
    Big.mul .Zero POS_INFINITY = Big.NaN ∧
    Big.mul .Zero NEG_INFINITY = NEG_INFINITY ∧
    Big.mul POS_INFINITY .Zero = Big.NaN ∧
    Big.mul NEG_INFINITY .Zero = Big.NaN := by
  with_unfolding_all decide

/-- C4 counterexample: `Zero / Zero` is `Zero`, not `NaN` — the `(Zero, _) => return`
arm precedes the `(_, Zero) => NaN` arm. -/
theorem C4_counterexample :
    Big.div .Zero .Zero = .Zero ∧ Big.Zero ≠ Big.NaN := by
  with_unfolding_all decide

/-- C4 amended: division by Zero yields NaN for every Number and Infinity dividend,
but `Zero / Zero = Zero`; and Zero divided by any Number or Infinity yields Zero. -/
theorem C4_div_zero_table (m : ℚ) (e : ℤ) (k : InfinityKind) :
    Big.div (.Number m e) .Zero = .NaN ∧
    Big.div (.Infinity k) .Zero = .NaN ∧
    Big.div .Zero .Zero = .Zero ∧
    Big.div .Zero (.Number m e) = .Zero ∧
    Big.div .Zero (.Infinity k) = .Zero :=
  ⟨rfl, rfl, rfl, rfl, rfl⟩

/-- C5: the claim that the `delta >= 15` subtraction fast path negates the right
operand fails on the code: `sub_mut_unnormalized` copies `rhs` without flipping its
sign, so `1 - 1e20` evaluates to `+1e20`. -/
theorem C5_sub_cutoff_unnegated :
    Big.sub (.Number 1 0) (.Number 1 20) = .Number 1 20 ∧
    Big.sub (.Number 1 0) (.Number 1 20) ≠ .Number (-1) 20 := by
  with_unfolding_all decide

/-- C6 counterexample: parsing "1.23e-1234" succeeds through the ordinary `f64` parse
path (the literal underflows to 0.0), so the result is `Zero`, not
`Number { m: 1.23, e: -1234 }`, and formatting it gives "0.00". -/
theorem C6_counterexample :
    from_str "1.23e-1234" = Except.ok Big.Zero ∧
    Big.Zero ≠ Big.Number (123 / 100) (-1234) ∧
    Big.to_exponential Big.Zero 2 = "0.00" := by
  with_unfolding_all decide

/-- C6 amended: `"1.23e-1234".parse::<Big>()` yields `Ok(Zero)` (the `f64` fast path
accepts the literal and underflows to zero before the crate's own mantissa/exponent
split can run), and `to_exponential(2)` on that result is "0.00"; the value
`Big::new(1.23, -1234)` itself does format as "1.23e-1234". -/
theorem C6_parse_underflow :
    from_str "1.23e-1234" = Except.ok Big.Zero ∧
    Big.to_exponential Big.Zero 2 = "0.00" ∧
    Big.new (123 / 100) (-1234) = .Number (123 / 100) (-1234) ∧
    Big.to_exponential (Big.new (123 / 100) (-1234)) 2 = "1.23e-1234" := by
  with_unfolding_all decide

/-- C7: `normalize` is the identity on every canonical value: the special states
are returned unchanged, positive canonical mantissas take the fast path, and
negative canonical mantissas rescale by `10^0 = 1`. -/
theorem C7_normalize_idempotent (b : Big) (h : canonical b = true) :
    b.normalize = b := by
  cases b with
  | NaN => rfl
  | Zero => rfl
  | Infinity k => rfl
  | Number m e =>
    have h' : (1 ≤ qabs m ∧ qabs m < 10) ∧ inRange64 e = true := by
      simpa [canonical] using h
    have hm : m ≠ 0 := by
      intro h0
      rw [h0] at h'
      norm_num [qabs] at h'
    rw [normalize_eq_normResult m e hm h'.2]
    have hlog : Int.log 10 (qabs m) = 0 := log10_eq_zero h'.1.1 h'.1.2
    simp only [normResult, hlog]
    rw [if_neg (not_lt.mpr h'.1.1), if_pos h'.1.2, zpow_zero, div_one, add_zero,
      wrap64_eq_of_inRange h'.2]

theorem C7_witness :
    canonical (Big.Number (-(5 / 2)) 7) = true ∧
    (Big.Number (-(5 / 2)) 7).normalize = Big.Number (-(5 / 2)) 7 :=
  ⟨by with_unfolding_all decide,
   C7_normalize_idempotent _ (by with_unfolding_all decide)⟩

/-- C8 counterexample: under the library's `PartialEq`, `a + b == b + a` fails for
`a = Zero, b = 5` — the `(Zero, other)` arm of `add_mut_unnormalized` does not
`return`, so control falls into the numeric block and `Zero + 5` evaluates to `10`
(normalized `1e1`) while `5 + Zero` is `5`; it also fails for `a = b = +inf` because
the result `+inf` is never `PartialEq`-equal to anything. -/
theorem C8_counterexample :
    Big.beq (Big.add .Zero (.Number 5 0)) (Big.add (.Number 5 0) .Zero) = false ∧
    Big.add .Zero (.Number 5 0) = .Number 1 1 ∧
    Big.add (.Number 5 0) .Zero = .Number 5 0 ∧
    Big.beq (Big.add POS_INFINITY POS_INFINITY) (Big.add POS_INFINITY POS_INFINITY)
      = false := by
  with_unfolding_all decide

/-- C8 amended: `a * b` and `b * a` are structurally identical for all canonical
finite (Number/Zero) operand pairs, and `a + b` and `b + a` are structurally
identical for canonical Number pairs on which both evaluation orders perform the
identical f64 computation — equal exponents or the cutoff regime `|delta| >= 15`,
with the difference fitting `i64` — and for two Zeros; the `PartialEq` form
`a + b == b + a` then holds whenever that common result is a Number or Zero.
Commutativity fails as originally claimed because (i) the `(Zero, other)` arm of
`add_mut_unnormalized` lacks a `return`, so `Zero + x` falls into the numeric block
and doubles `x`, (ii) Infinity/NaN results are never `PartialEq`-equal to anything,
and (iii) in the rescaling regime `0 < |delta| < 15` the two orders round
differently in f64 (see `addCommOK`), as well as at exponent differences beyond
`i64`, where the wrapped delta diverges between the orders. -/
theorem C8_comm (a b : Big) (ha : canonical a = true) (hb : canonical b = true) :
    (addCommOK a b = true → Big.add a b = Big.add b a) ∧
    (mulCommOK a b = true → Big.mul a b = Big.mul b a) := by
  constructor
  · intro hok
    cases a with
    | Number m1 e1 =>
      cases b with
      | Number m2 e2 =>
        have hok' : inRange64 (e2 - e1) = true ∧ inRange64 (e1 - e2) = true ∧
            (e1 = e2 ∨ SIG_DIGITS ≤ e2 - e1 ∨ SIG_DIGITS + e2 ≤ e1) := by
          simpa [addCommOK, Bool.and_eq_true, Bool.or_eq_true, decide_eq_true_eq,
            and_assoc, or_assoc] using hok
        rw [add_number_number, add_number_number,
          wrap64_eq_of_inRange hok'.1, wrap64_eq_of_inRange hok'.2.1]
        rcases hok'.2.2 with heq | hge | hle
        · -- delta = 0: the shared sum `m1 + m2` at the shared exponent
          subst heq
          have hn1 : ¬((0:ℤ) ≤ -SIG_DIGITS) := by norm_num [SIG_DIGITS]
          have hn2 : ¬(SIG_DIGITS ≤ (0:ℤ)) := by norm_num [SIG_DIGITS]
          simp only [sub_self, if_neg hn1, if_neg hn2, zpow_zero, mul_one]
          rw [add_comm m1 m2]
        · -- delta >= 15: both orders return the copy of the higher operand
          rw [if_neg (by simp only [SIG_DIGITS] at *; omega), if_pos hge,
            if_pos (by simp only [SIG_DIGITS] at *; omega)]
        · -- delta <= -15: symmetric
          rw [if_pos (show e2 - e1 ≤ -SIG_DIGITS by simp only [SIG_DIGITS] at *; omega),
            if_neg (by simp only [SIG_DIGITS] at *; omega),
            if_pos (by simp only [SIG_DIGITS] at *; omega)]
      | NaN => simp [addCommOK] at hok
      | Infinity k => simp [addCommOK] at hok
      | Zero => simp [addCommOK] at hok
    | NaN => cases b <;> simp [addCommOK] at hok
    | Infinity k => cases b <;> simp [addCommOK] at hok
    | Zero =>
      cases b with
      | Zero => rfl
      | Number m e => simp [addCommOK] at hok
      | NaN => simp [addCommOK] at hok
      | Infinity k => simp [addCommOK] at hok
  · intro hok
    cases a with
    | Number m1 e1 =>
      cases b with
      | Number m2 e2 =>
        rw [mul_number_number, mul_number_number, mul_comm m2 m1, add_comm e2 e1]
      | NaN => simp [mulCommOK] at hok
      | Infinity k => simp [mulCommOK] at hok
      | Zero => rfl
    | NaN => cases b <;> simp [mulCommOK] at hok
    | Infinity k => cases b <;> simp [mulCommOK] at hok
    | Zero =>
      cases b with
      | Zero => rfl
      | Number m e => rfl
      | NaN => simp [mulCommOK] at hok
      | Infinity k => simp [mulCommOK] at hok

theorem C8_comm_witness :
    canonical (Big.Number (3 / 2) 7) = true ∧ canonical (Big.Number 2 7) = true ∧
    addCommOK (Big.Number (3 / 2) 7) (Big.Number 2 7) = true ∧
    mulCommOK (Big.Number (3 / 2) 7) (Big.Number 2 7) = true ∧
    Big.add (Big.Number (3 / 2) 7) (Big.Number 2 7)
      = Big.add (Big.Number 2 7) (Big.Number (3 / 2) 7) ∧
    Big.mul (Big.Number (3 / 2) 7) (Big.Number 2 7)
      = Big.mul (Big.Number 2 7) (Big.Number (3 / 2) 7) :=
  ⟨by with_unfolding_all decide, by with_unfolding_all decide,
   by with_unfolding_all decide, by with_unfolding_all decide,
   (C8_comm _ _ (by with_unfolding_all decide) (by with_unfolding_all decide)).1
     (by with_unfolding_all decide),
   (C8_comm _ _ (by with_unfolding_all decide) (by with_unfolding_all decide)).2
     (by with_unfolding_all decide)⟩

/-- C9 counterexample: the subnormal power `2^(-1030)` is a nonzero `f64`, yet
`Zero.powf(2^(-1030))` is `NaN`, not `Zero` — the guard uses `is_normal`, which
rejects subnormal (and infinite and NaN) powers, and `log10(Zero) * power = NaN`
then flows to the NaN arm. -/
theorem C9_counterexample :
    ((qpowN 2 1030)⁻¹ : ℚ) ≠ 0 ∧
    Big.powf .Zero (.finite ((qpowN 2 1030)⁻¹)) = .NaN ∧
    Big.NaN ≠ Big.Zero := by
  with_unfolding_all decide

/-- C9 amended: `Zero.powf(power)` is `Zero` exactly when `power` is a *normal*
nonzero f64, and `NaN` for every other power: zero, subnormal, infinite or NaN. -/
theorem C9_powf_zero (p : F) :
    Big.powf .Zero p = if p.isNormal then Big.Zero else Big.NaN := by
  by_cases hp : p.isNormal = true
  · rw [if_pos hp]
    show Big.powf_mut .Zero p = Big.Zero
    unfold Big.powf_mut
    rw [if_pos ⟨rfl, hp⟩]
  · rw [if_neg hp]
    show Big.powf_mut .Zero p = Big.NaN
    unfold Big.powf_mut
    rw [if_neg (fun hc => hp hc.2)]
    have h1 : (Big.abs .Zero).log10 = F.nan := rfl
    rw [h1, F_mul_nan_left]

/-- C10: `abs_mut` and `abs` leave every non-Number state unchanged — both
infinities (the negative one included), Zero and NaN. -/
theorem C10_abs_non_number (k : InfinityKind) :
    Big.abs_mut (.Infinity k) = .Infinity k ∧ Big.abs (.Infinity k) = .Infinity k ∧
    Big.abs_mut .Zero = .Zero ∧ Big.abs .Zero = .Zero ∧
    Big.abs_mut .NaN = .NaN ∧ Big.abs .NaN = .NaN :=
  ⟨rfl, rfl, rfl, rfl, rfl, rfl⟩

end BigNum
